import Mathlib

/-!
Verification of the pairs-trading analytics core (`analytics.py`, helped by the
alignment step in `dashboard.py`) against its natural-language specification.

The pipeline is shallowly embedded: prices and statistics are exact rationals
(reals where a square root occurs), timestamps are naturals, a pandas `NaN` is
modelled explicitly (`Option` for plain missing values, `PFloat` where an
infinity could also arise), and each Python function becomes a pure Lean
function of the data it actually reads.
-/

namespace Quant

/-! ## Backtest simulator (`run_backtest`, analytics.py lines 117-153)

The Python loop keeps `current_pos ∈ {0, 1, -1}` (0 = Flat, 1 = Long,
-1 = Short), updates it once per row from the z-score, and records the
post-update value.  PnL columns are pandas expressions:
`spread_change = spread.diff()`, `pnl = position.shift(1) * spread_change`,
`cumulative_pnl = pnl.cumsum()`.  `diff` and `shift(1)` put `NaN` in row 0,
multiplication propagates `NaN`, and `cumsum` leaves `NaN` cells as `NaN`
while carrying the running sum across them; `Option ℚ` models that, with
`none` playing `NaN`. -/

/-- One iteration of the position loop: entry when flat (`z > T` goes short,
`z < -T` goes long), exit on mean reversion, mirroring the `if`/`elif` chain. -/
def backtestStep (entry_threshold z : ℚ) (pos : Int) : Int :=
  if pos = 0 then
    if z > entry_threshold then -1
    else if z < -entry_threshold then 1
    else 0
  else if pos = -1 ∧ z ≤ 0 then 0
  else if pos = 1 ∧ z ≥ 0 then 0
  else pos

/-- The recorded `positions` list: the state after applying each step's rule,
starting from `pos` (the source starts flat, `current_pos = 0`). -/
def backtestPositions (entry_threshold : ℚ) (pos : Int) : List ℚ → List Int
  | [] => []
  | z :: zs =>
    backtestStep entry_threshold z pos ::
      backtestPositions entry_threshold (backtestStep entry_threshold z pos) zs

/-- Pandas `spread.diff()`: `NaN` at row 0, `spread[i] - spread[i-1]` after. -/
def spreadDiff (spread : List ℚ) : List (Option ℚ) :=
  match spread with
  | [] => []
  | _ :: rest => none :: List.zipWith (fun a b => some (a - b)) rest spread

/-- Multiplication with `NaN` propagation, for `position.shift(1) * spread_change`. -/
def omul (a b : Option ℚ) : Option ℚ :=
  match a, b with
  | some x, some y => some (x * y)
  | _, _ => none

/-- Addition with `NaN` propagation, for relating `cumsum` cells. -/
def oadd (a b : Option ℚ) : Option ℚ :=
  match a, b with
  | some x, some y => some (x + y)
  | _, _ => none

/-- Pandas `cumsum()` on a column with `NaN`s: a `NaN` cell stays `NaN` and the
running sum resumes, unchanged, at the next non-`NaN` cell. -/
def cumsumNaN (acc : ℚ) : List (Option ℚ) → List (Option ℚ)
  | [] => []
  | none :: rest => none :: cumsumNaN acc rest
  | some v :: rest => some (acc + v) :: cumsumNaN (acc + v) rest

/-- Running sums: `scanSums acc l` lists the partial sums of `l` on top of
`acc`, the totals pandas `cumsum` produces on the non-`NaN` cells. -/
def scanSums (acc : ℚ) : List ℚ → List ℚ
  | [] => []
  | v :: r => (acc + v) :: scanSums (acc + v) r

/-- Output of `run_backtest`: the per-row columns it adds to the frame. -/
structure BacktestResult where
  positions : List Int
  spread_change : List (Option ℚ)
  pnl : List (Option ℚ)
  cumulative_pnl : List (Option ℚ)
  deriving Repr, DecidableEq

/-- The whole of `run_backtest`: positions from the threshold state machine
(initial state flat), then the lagged PnL columns. -/
def run_backtest (spread zscore : List ℚ) (entry_threshold : ℚ) : BacktestResult :=
  let positions := backtestPositions entry_threshold 0 zscore
  let change := spreadDiff spread
  let pnl := List.zipWith omul (none :: positions.map (fun p => some ((p : Int) : ℚ))) change
  { positions := positions
    spread_change := change
    pnl := pnl
    cumulative_pnl := cumsumNaN 0 pnl }

/-! ## Specification-side position state machine (spec section 4.6)

A second definition, written from the specification's words, to compare the
code's integer-coded loop against: states `Flat`, `Long`, `Short`, entry from
`Flat` at `|z| > T`, exit on mean reversion. -/

/-- Position states named as in the specification. -/
inductive Position : Type
  | Flat : Position
  | Long : Position
  | Short : Position
  deriving Repr, DecidableEq

/-- Integer encoding used by the code: `Long = 1`, `Short = -1`, `Flat = 0`. -/
def Position.toInt : Position → Int
  | .Flat => 0
  | .Long => 1
  | .Short => -1

/-- Modelled from the spec: the transition rules of section 4.6, verbatim. -/
def stepSpec (entry_threshold z : ℚ) : Position → Position
  | .Flat =>
    if z > entry_threshold then .Short
    else if z < -entry_threshold then .Long
    else .Flat
  | .Short => if z ≤ 0 then .Flat else .Short
  | .Long => if z ≥ 0 then .Flat else .Long

/-- Modelled from the spec: run the machine over the z-score sequence,
recording after each step the state that step produced. -/
def specPositions (entry_threshold : ℚ) (s : Position) : List ℚ → List Position
  | [] => []
  | z :: zs =>
    stepSpec entry_threshold z s ::
      specPositions entry_threshold (stepSpec entry_threshold z s) zs

/-! ## Pair alignment as in `pd.concat([...], axis=1).dropna()`
(analytics.py lines 53, 71, 93)

Series are indexed by natural-number timestamps; a `none` value is a `NaN`
cell.  `concat` aligns the two series on their index and `dropna` keeps the
rows where both sides are present and non-`NaN`, in index order. -/

/-- Value of the series at timestamp `t`: `none` when `t` is absent from the
index, `some none` when present but `NaN`. -/
def lookupTs (t : ℕ) (l : List (ℕ × Option ℚ)) : Option (Option ℚ) :=
  (l.find? (fun p => p.1 = t)).map Prod.snd

/-- The rows of `pd.concat([series_y, series_x], axis=1).dropna()`: timestamps
present in both series with both values non-`NaN`, keeping `series_y`'s order
(the index order, for sorted inputs). -/
def alignDropna (series_y series_x : List (ℕ × Option ℚ)) : List (ℕ × ℚ × ℚ) :=
  series_y.filterMap (fun p =>
    match p.2, lookupTs p.1 series_x with
    | some y, some (some x) => some (p.1, y, x)
    | _, _ => none)

/-! ## Hedge estimator (`calculate_ols_hedge_ratio`, analytics.py lines 47-64)

`sm.OLS(Y, sm.add_constant(X)).fit().params.iloc[1]` on the aligned frame.
For a non-degenerate `X` the design `[1, X]` has full rank and the slope is
the unique normal-equations solution, `(n·Σxy − Σx·Σy) / (n·Σx² − (Σx)²)`.
When `X` has zero variance the denominator is zero and the code returns 0.0
on every path: for a constant nonzero `X`, `add_constant` (default
`has_constant='skip'`) does not add a column, `params` has a single entry and
`params.iloc[1]` raises, caught by the bare `except` returning 0.0; for the
all-zero `X`, the pseudoinverse-based fit gives the zero column a zero
coefficient.  Fewer than 5 aligned rows return 0.0 up front. -/

/-- Sum of the dependent values of the aligned rows. -/
def sumY (df : List (ℕ × ℚ × ℚ)) : ℚ := (df.map (fun e => e.2.1)).sum

/-- Sum of the regressor values of the aligned rows. -/
def sumX (df : List (ℕ × ℚ × ℚ)) : ℚ := (df.map (fun e => e.2.2)).sum

/-- Sum of squared regressor values. -/
def sumXX (df : List (ℕ × ℚ × ℚ)) : ℚ := (df.map (fun e => e.2.2 * e.2.2)).sum

/-- Sum of cross products. -/
def sumXY (df : List (ℕ × ℚ × ℚ)) : ℚ := (df.map (fun e => e.2.2 * e.2.1)).sum

/-- Determinant of the normal equations, `n·Σx² − (Σx)²`; zero exactly when
`X` has zero variance over the aligned rows. -/
def olsDen (df : List (ℕ × ℚ × ℚ)) : ℚ := (df.length : ℚ) * sumXX df - sumX df * sumX df

/-- The hedge ratio: 0.0 with fewer than 5 aligned rows or a singular
regression, otherwise the OLS slope of Y on X with intercept. -/
def calculate_ols_hedge_ratio (series_y series_x : List (ℕ × Option ℚ)) : ℚ :=
  let df := alignDropna series_y series_x
  if df.length < 5 then 0
  else if olsDen df = 0 then 0
  else ((df.length : ℚ) * sumXY df - sumX df * sumY df) / olsDen df

/-- Modelled from the spec: `(a, b)` is an ordinary-least-squares fit of Y on
X with intercept when the residuals `y − a − b·x` satisfy the two normal
equations (zero sum, and zero sum against `x`). -/
def isOLSFit (df : List (ℕ × ℚ × ℚ)) (a b : ℚ) : Prop :=
  (df.map (fun e => e.2.1 - a - b * e.2.2)).sum = 0 ∧
  (df.map (fun e => (e.2.1 - a - b * e.2.2) * e.2.2)).sum = 0

/-! ## Spread (`calculate_spread`, analytics.py lines 66-73) -/

/-- Spread series: align, then `Y − hedge_ratio·X` elementwise, keeping the
shared index. -/
def calculate_spread (series_y series_x : List (ℕ × Option ℚ)) (hedge_ratio : ℚ) :
    List (ℕ × ℚ) :=
  (alignDropna series_y series_x).map (fun e => (e.1, e.2.1 - hedge_ratio * e.2.2))

/-! ## Rolling z-score (`calculate_zscore`, analytics.py lines 75-86)

`(spread - spread.rolling(w).mean()) / spread.rolling(w).std()` then
`fillna(0)`.  Rolling statistics are `NaN` until the window is full
(`min_periods` defaults to the window size) and the sample standard deviation
(`ddof=1`) is `NaN` for a window of one.  Float division is modelled exactly:
`0/0` is `NaN`, `x/0` is a signed infinity for `x ≠ 0`; `fillna(0)` replaces
only `NaN`, not infinities.  Values are real numbers since the standard
deviation takes a square root. -/

/-- Ideal float values: a real, a signed infinity, or `NaN`. -/
inductive PFloat : Type
  | nan : PFloat
  | posinf : PFloat
  | neginf : PFloat
  | val : ℝ → PFloat

/-- Float division: `0/0` is `NaN` and `x/0` is a signed infinity. -/
noncomputable def pdiv (a b : ℝ) : PFloat :=
  if b = 0 then (if a = 0 then PFloat.nan else if 0 < a then PFloat.posinf else PFloat.neginf)
  else PFloat.val (a / b)

/-- `fillna(0)`: replaces `NaN` and nothing else. -/
def fillna0 : PFloat → PFloat
  | PFloat.nan => PFloat.val 0
  | x => x

/-- The trailing window `spread[i−w+1 .. i]` (truncated at the left edge; the
z-score only reads it when the window is complete). -/
def windowSlice (l : List ℝ) (w i : ℕ) : List ℝ := (l.take (i + 1)).drop (i + 1 - w)

/-- Rolling mean of the window ending at `i`. -/
noncomputable def windowMean (l : List ℝ) (w i : ℕ) : ℝ := (windowSlice l w i).sum / w

/-- Rolling sample variance (`ddof=1`) of the window ending at `i`. -/
noncomputable def windowVar (l : List ℝ) (w i : ℕ) : ℝ :=
  ((windowSlice l w i).map (fun x => (x - windowMean l w i) ^ 2)).sum / ((w : ℝ) - 1)

/-- One cell of `(spread - mean) / std` before `fillna`: `NaN` while the
window is incomplete (rolling mean/std are `NaN`) and for `w ≤ 1` (sample std
of a single observation is `NaN`), otherwise the float division. -/
noncomputable def zscoreRaw (spread : List ℝ) (window i : ℕ) : PFloat :=
  if i + 1 < window then PFloat.nan
  else if window ≤ 1 then PFloat.nan
  else pdiv (spread.getD i 0 - windowMean spread window i)
    (Real.sqrt (windowVar spread window i))

/-- The z-score series: one cell per input index, `fillna(0)` applied. -/
noncomputable def calculate_zscore (spread : List ℝ) (window : ℕ) : List PFloat :=
  (List.range spread.length).map (fun i => fillna0 (zscoreRaw spread window i))

/-! ## Rolling correlation (`calculate_rolling_correlation`, analytics.py
lines 88-96): align, then the Pearson correlation of the two columns over
each complete trailing window (`NaN` until then). -/

/-- Rolling Pearson correlation of the aligned pair over window `w`:
`Σ dy·dx / (√Σdy² · √Σdx²)` on each complete window, `NaN` before. -/
noncomputable def calculate_rolling_correlation (series_y series_x : List (ℕ × Option ℚ))
    (window : ℕ) : List PFloat :=
  let df := (alignDropna series_y series_x).map
    (fun e => (((e.2.1 : ℚ) : ℝ), ((e.2.2 : ℚ) : ℝ)))
  (List.range df.length).map (fun i =>
    if i + 1 < window ∨ window ≤ 1 then PFloat.nan
    else
      let ys := windowSlice (df.map Prod.fst) window i
      let xs := windowSlice (df.map Prod.snd) window i
      let my := ys.sum / window
      let mx := xs.sum / window
      pdiv ((List.zipWith (fun a b => (a - my) * (b - mx)) ys xs).sum)
        (Real.sqrt ((ys.map (fun a => (a - my) ^ 2)).sum)
          * Real.sqrt ((xs.map (fun b => (b - mx) ^ 2)).sum)))

/-! ## Stationarity tester (`perform_adf_test`, analytics.py lines 98-115)

The Augmented Dickey-Fuller routine itself is third-party
(`statsmodels.tsa.stattools.adfuller`); it is abstracted as an oracle
returning `(statistic, p_value)` or `none` when it raises, which the bare
`except` turns into `None`.  The code around it — `dropna`, the minimum-20
gate, the `p < 0.05` verdict — is modelled exactly. -/

/-- Result dictionary of `perform_adf_test`. -/
structure ADFResult where
  adf_stat : ℚ
  p_value : ℚ
  is_stationary : Bool
  deriving Repr, DecidableEq

/-- The stationarity tester: `None` below 20 clean observations or when the
test routine fails, otherwise the statistic, p-value and `p < 0.05` verdict. -/
def perform_adf_test (adfuller : List ℚ → Option (ℚ × ℚ))
    (spread : List (Option ℚ)) : Option ADFResult :=
  let clean_spread := spread.filterMap id
  if clean_spread.length < 20 then none
  else
    match adfuller clean_spread with
    | none => none
    | some (s, p) => some ⟨s, p, decide (p < (0.05 : ℚ))⟩

/-! ## Bar aggregator (`load_data`, analytics.py lines 9-45)

Ticks are `(timestamp, price)` with timestamps in whole time units; the
resample interval is `d` units.  The code sorts by timestamp, resamples into
half-open epoch-aligned buckets `[k·d, (k+1)·d)` (bucket of `t` is `t / d`),
takes OHLC per bucket and drops empty buckets (`dropna`). -/

/-- One OHLC bar (`opn` stands for the `open` column, a reserved word). -/
structure Bar where
  interval_start : ℕ
  opn : ℚ
  high : ℚ
  low : ℚ
  close : ℚ
  deriving Repr, DecidableEq

/-- The ticks of bucket `k`, in time order (`sort_values('timestamp')`). -/
def bucketTicks (d k : ℕ) (ticks : List (ℕ × ℚ)) : List (ℕ × ℚ) :=
  (ticks.insertionSort (fun p q => p.1 ≤ q.1)).filter (fun p => p.1 / d = k)

/-- OHLC of one non-empty bucket: open = first price, close = last price,
high/low = max/min price. -/
def mkBar (d k : ℕ) : List (ℕ × ℚ) → Option Bar
  | [] => none
  | p :: ps =>
    some { interval_start := k * d
           opn := p.2
           high := ps.foldl (fun m q => max m q.2) p.2
           low := ps.foldl (fun m q => min m q.2) p.2
           close := (ps.getLastD p).2 }

/-- The bar series: one bar per non-empty bucket, in bucket order. -/
def load_data (d : ℕ) (ticks : List (ℕ × ℚ)) : List Bar :=
  let sorted := ticks.insertionSort (fun p q => p.1 ≤ q.1)
  ((sorted.map (fun p => p.1 / d)).dedup).filterMap
    (fun k => mkBar d k (bucketTicks d k ticks))

/-! ## Pair aligner on bars (`common_idx`, dashboard.py lines 58-62)

`df_y.index.intersection(df_x.index)` then `.loc[common_idx]['close']`: the
timestamps present in both bar series, with each side's close price. -/

/-- The aligned pair of close series over the intersection of timestamps. -/
def alignPair (ys xs : List (ℕ × ℚ)) : List (ℕ × ℚ × ℚ) :=
  ys.filterMap (fun p => (xs.find? (fun q => q.1 = p.1)).map (fun q => (p.1, p.2, q.2)))

/-! ## Supporting lemmas for the backtest -/

lemma backtestStep_toInt (T z : ℚ) (p : Position) :
    backtestStep T z p.toInt = (stepSpec T z p).toInt := by
  cases p <;> simp only [backtestStep, stepSpec, Position.toInt] <;> split_ifs <;>
    simp_all [Position.toInt]

lemma backtestPositions_eq_spec (T : ℚ) (p : Position) (zs : List ℚ) :
    backtestPositions T p.toInt zs = (specPositions T p zs).map Position.toInt := by
  induction zs generalizing p with
  | nil => rfl
  | cons z zs ih =>
    simp only [backtestPositions, specPositions, List.map_cons, backtestStep_toInt]
    exact congrArg _ (ih (stepSpec T z p))

lemma backtestPositions_length (T : ℚ) (p : Int) (zs : List ℚ) :
    (backtestPositions T p zs).length = zs.length := by
  induction zs generalizing p with
  | nil => rfl
  | cons z zs ih => simp [backtestPositions, ih]

lemma backtestStep_range (T z : ℚ) (p : Int) (hp : p = -1 ∨ p = 0 ∨ p = 1) :
    backtestStep T z p = -1 ∨ backtestStep T z p = 0 ∨ backtestStep T z p = 1 := by
  unfold backtestStep
  split_ifs <;> simp_all

lemma backtestPositions_range (T : ℚ) (p : Int) (zs : List ℚ)
    (hp : p = -1 ∨ p = 0 ∨ p = 1) :
    ∀ q ∈ backtestPositions T p zs, q = -1 ∨ q = 0 ∨ q = 1 := by
  induction zs generalizing p with
  | nil => intro q hq; cases hq
  | cons z zs ih =>
    intro q hq
    rcases List.mem_cons.mp hq with hq | hq
    · subst hq; exact backtestStep_range T z p hp
    · exact ih (backtestStep T z p) (backtestStep_range T z p hp) q hq

lemma spreadDiff_length (s : List ℚ) : (spreadDiff s).length = s.length := by
  cases s with
  | nil => rfl
  | cons a rest => simp [spreadDiff]

lemma cumsumNaN_length (acc : ℚ) (l : List (Option ℚ)) :
    (cumsumNaN acc l).length = l.length := by
  induction l generalizing acc with
  | nil => rfl
  | cons o rest ih => cases o <;> simp [cumsumNaN, ih]

/-! ## C3: the recorded positions are exactly the spec's state machine run -/

/-- C3: for every spread series, z-score series and threshold, the position
column of `run_backtest` equals the run of the specification's three-state
machine (section 4.6) started in `Flat`, each step recording the state after
that step's rule, under the encoding `Long = 1`, `Short = -1`, `Flat = 0`. -/
theorem backtest_positions_follow_spec_machine (spread zscore : List ℚ)
    (entry_threshold : ℚ) :
    (run_backtest spread zscore entry_threshold).positions
      = (specPositions entry_threshold Position.Flat zscore).map Position.toInt :=
  backtestPositions_eq_spec entry_threshold Position.Flat zscore

/-! ## C10: row invariants of the backtest frame -/

/-- C10: with matching input columns, `run_backtest` produces exactly one row
per input timestep (each output column has the input length), every recorded
position is -1, 0 or 1, and no single step both enters (flat to non-flat) and
exits (non-flat to flat) a position. -/
theorem backtest_row_invariants (spread zscore : List ℚ) (entry_threshold : ℚ)
    (h : zscore.length = spread.length) :
    (run_backtest spread zscore entry_threshold).positions.length = spread.length ∧
    (run_backtest spread zscore entry_threshold).spread_change.length = spread.length ∧
    (run_backtest spread zscore entry_threshold).pnl.length = spread.length ∧
    (run_backtest spread zscore entry_threshold).cumulative_pnl.length = spread.length ∧
    (∀ q ∈ (run_backtest spread zscore entry_threshold).positions,
      q = -1 ∨ q = 0 ∨ q = 1) ∧
    (∀ (T z : ℚ) (p : Int),
      ¬((p = 0 ∧ backtestStep T z p ≠ 0) ∧ (p ≠ 0 ∧ backtestStep T z p = 0))) := by
  have hpos : (run_backtest spread zscore entry_threshold).positions.length
      = spread.length := by
    simp [run_backtest, backtestPositions_length, h]
  have hchange : (run_backtest spread zscore entry_threshold).spread_change.length
      = spread.length := by
    simp [run_backtest, spreadDiff_length]
  have hpnl : (run_backtest spread zscore entry_threshold).pnl.length
      = spread.length := by
    simp only [run_backtest, List.length_zipWith, List.length_cons, List.length_map,
      backtestPositions_length, spreadDiff_length, h]
    omega
  refine ⟨hpos, hchange, hpnl, ?_, ?_, ?_⟩
  · simpa [run_backtest, cumsumNaN_length] using hpnl
  · exact backtestPositions_range entry_threshold 0 zscore (by simp)
  · rintro T z p ⟨⟨h0, _⟩, ⟨hne, _⟩⟩
    exact hne h0

/-! ## C1: lagged PnL accounting -/

lemma cumsumNaN_map_some (acc : ℚ) (l : List ℚ) :
    cumsumNaN acc (l.map some) = (scanSums acc l).map some := by
  induction l generalizing acc with
  | nil => rfl
  | cons v r ih => simp [cumsumNaN, scanSums, ih]

lemma scanSums_length (acc : ℚ) (l : List ℚ) : (scanSums acc l).length = l.length := by
  induction l generalizing acc with
  | nil => rfl
  | cons v r ih => simp [scanSums, ih]

lemma scanSums_getD_succ (l : List ℚ) (acc : ℚ) (j : ℕ) (hj : j + 1 < l.length) :
    (scanSums acc l).getD (j + 1) 0 = (scanSums acc l).getD j 0 + l.getD (j + 1) 0 := by
  induction l generalizing acc j with
  | nil => simp at hj
  | cons v r ih =>
    cases j with
    | zero =>
      cases r with
      | nil => simp at hj
      | cons w r' => simp [scanSums]
    | succ j' =>
      have hj' : j' + 1 < r.length := by simpa using hj
      simpa [scanSums] using ih (acc + v) j' hj'

/-- Shape of the `pnl` column on a nonempty spread: a leading `NaN`, then the
products of the previous step's position with the spread change. -/
lemma run_backtest_pnl_shape (a : ℚ) (rest zscore : List ℚ) (T : ℚ) :
    (run_backtest (a :: rest) zscore T).pnl
      = none :: (List.zipWith (fun (p : Int) (c : ℚ) => (p : ℚ) * c)
          (backtestPositions T 0 zscore)
          (List.zipWith (fun x y => x - y) rest (a :: rest))).map some := by
  simp only [run_backtest, spreadDiff, List.zipWith_cons_cons]
  have h1 : List.zipWith (fun x y => some (x - y)) rest (a :: rest)
      = (List.zipWith (fun x y => x - y) rest (a :: rest)).map some :=
    (List.map_zipWith _ _ _ _).symm
  rw [h1, List.zipWith_map_left, List.zipWith_map_right]
  simp [omul, List.map_zipWith]

/-- Shape of the `cumulative_pnl` column on a nonempty spread. -/
lemma run_backtest_cum_shape (a : ℚ) (rest zscore : List ℚ) (T : ℚ) :
    (run_backtest (a :: rest) zscore T).cumulative_pnl
      = none :: (scanSums 0 (List.zipWith (fun (p : Int) (c : ℚ) => (p : ℚ) * c)
          (backtestPositions T 0 zscore)
          (List.zipWith (fun x y => x - y) rest (a :: rest)))).map some := by
  have hc : (run_backtest (a :: rest) zscore T).cumulative_pnl
      = cumsumNaN 0 ((run_backtest (a :: rest) zscore T).pnl) := rfl
  rw [hc, run_backtest_pnl_shape]
  simp [cumsumNaN, cumsumNaN_map_some]

lemma getElem?_eq_some_getD {α : Type} (l : List α) (j : ℕ) (d : α)
    (hj : j < l.length) : l[j]? = some (l.getD j d) := by
  rw [List.getElem?_eq_getElem hj, List.getD_eq_getElem l d hj]

lemma nan_cons_getElem?_succ {α : Type} (l : List α) (j : ℕ) (d : α)
    (hj : j < l.length) :
    (none :: l.map some)[j + 1]? = some (some (l.getD j d)) := by
  rw [List.getElem?_cons_succ, List.getElem?_map,
    getElem?_eq_some_getD l j d hj, Option.map_some']

lemma nan_cons_getElem?_pos {α : Type} (l : List α) (j : ℕ) (d : α)
    (hj1 : 1 ≤ j) (hj : j - 1 < l.length) :
    (none :: l.map some)[j]? = some (some (l.getD (j - 1) d)) := by
  obtain ⟨k, rfl⟩ : ∃ k, j = k + 1 := ⟨j - 1, by omega⟩
  simpa using nan_cons_getElem?_succ l k d (by simpa using hj)

lemma zipWith_getD {α β γ : Type} (f : α → β → γ) (l₁ : List α) (l₂ : List β)
    (j : ℕ) (d₁ : α) (d₂ : β) (d₃ : γ) (h₁ : j < l₁.length) (h₂ : j < l₂.length) :
    (List.zipWith f l₁ l₂).getD j d₃ = f (l₁.getD j d₁) (l₂.getD j d₂) := by
  have hj : j < (List.zipWith f l₁ l₂).length := by
    rw [List.length_zipWith]; omega
  rw [List.getD_eq_getElem _ d₃ hj, List.getD_eq_getElem l₁ d₁ h₁,
    List.getD_eq_getElem l₂ d₂ h₂, List.getElem_zipWith]

lemma scanSums_getD_zero (acc : ℚ) (l : List ℚ) (hl : l ≠ []) :
    (scanSums acc l).getD 0 0 = acc + l.getD 0 0 := by
  cases l with
  | nil => exact absurd rfl hl
  | cons v r => simp [scanSums]

/-- C1 counterexample: at spread `[10, 12]`, z `[0, 0]`, threshold 2 the first
row of `pnl` and of `cumulative_pnl` is `NaN` (`none`), not 0, because
`position.shift(1)` and `spread.diff()` both put `NaN` in row 0 and `cumsum`
keeps the `NaN` cell. -/
theorem backtest_first_pnl_is_nan :
    (run_backtest [10, 12] [0, 0] 2).pnl[0]? = some none ∧
    ¬((run_backtest [10, 12] [0, 0] 2).pnl[0]? = some (some 0)) ∧
    (run_backtest [10, 12] [0, 0] 2).cumulative_pnl[0]? = some none ∧
    ¬((run_backtest [10, 12] [0, 0] 2).cumulative_pnl[0]? = some (some 0)) := by
  refine ⟨rfl, ?_, rfl, ?_⟩ <;> decide

/-- C1 (amended): rows 0 of `pnl` and `cumulative_pnl` are `NaN` (not 0); for
`i ≥ 1`, `pnl[i] = position[i-1] * (spread[i] - spread[i-1])`;
`cumulative_pnl[1] = pnl[1]`, and for `i ≥ 2`,
`cumulative_pnl[i] = cumulative_pnl[i-1] + pnl[i]`. -/
theorem backtest_pnl_lagged_amended (spread zscore : List ℚ) (T : ℚ)
    (h : zscore.length = spread.length) :
    (0 < spread.length →
      (run_backtest spread zscore T).pnl[0]? = some none ∧
      (run_backtest spread zscore T).cumulative_pnl[0]? = some none) ∧
    (∀ i, 1 ≤ i → i < spread.length →
      (run_backtest spread zscore T).pnl[i]?
        = some (some ((((run_backtest spread zscore T).positions.getD (i - 1) 0 : Int) : ℚ)
            * (spread.getD i 0 - spread.getD (i - 1) 0)))) ∧
    (1 < spread.length →
      (run_backtest spread zscore T).cumulative_pnl[1]?
        = (run_backtest spread zscore T).pnl[1]?) ∧
    (∀ i, 2 ≤ i → i < spread.length →
      (run_backtest spread zscore T).cumulative_pnl.getD (i - 1) none ≠ none ∧
      (run_backtest spread zscore T).pnl.getD i none ≠ none ∧
      (run_backtest spread zscore T).cumulative_pnl[i]?
        = some (oadd ((run_backtest spread zscore T).cumulative_pnl.getD (i - 1) none)
            ((run_backtest spread zscore T).pnl.getD i none))) := by
  cases spread with
  | nil =>
    refine ⟨by simp, ?_, by simp, ?_⟩ <;> intro i h1 h2 <;> simp at h2
  | cons a rest =>
    have hpnl := run_backtest_pnl_shape a rest zscore T
    have hcum := run_backtest_cum_shape a rest zscore T
    have hPlen : (backtestPositions T 0 zscore).length = rest.length + 1 := by
      rw [backtestPositions_length, h]; rfl
    have hLlen : (List.zipWith (fun (p : Int) (c : ℚ) => (p : ℚ) * c)
        (backtestPositions T 0 zscore)
        (List.zipWith (fun x y => x - y) rest (a :: rest))).length = rest.length := by
      simp only [List.length_zipWith, hPlen, List.length_cons]
      omega
    have hpos : (run_backtest (a :: rest) zscore T).positions
        = backtestPositions T 0 zscore := rfl
    refine ⟨fun _ => ⟨by rw [hpnl]; simp, by rw [hcum]; simp⟩, ?_, ?_, ?_⟩
    · intro i hi1 hi2
      obtain ⟨j, rfl⟩ : ∃ j, i = j + 1 := ⟨i - 1, by omega⟩
      have hj : j < rest.length := by
        simp only [List.length_cons] at hi2; omega
      rw [hpnl, nan_cons_getElem?_succ _ j 0 (by rw [hLlen]; exact hj)]
      rw [zipWith_getD _ _ _ j 0 0 0 (by omega) (by simp [List.length_zipWith]; omega)]
      rw [zipWith_getD _ _ _ j 0 0 0 hj (by simp; omega)]
      simp only [hpos, Nat.add_sub_cancel, List.getD_cons_succ]
    · intro h2
      have hr : 0 < rest.length := by
        simp only [List.length_cons] at h2; omega
      rw [hpnl, hcum]
      have hS : (scanSums 0 (List.zipWith (fun (p : Int) (c : ℚ) => (p : ℚ) * c)
          (backtestPositions T 0 zscore)
          (List.zipWith (fun x y => x - y) rest (a :: rest)))).getD 0 0
          = (List.zipWith (fun (p : Int) (c : ℚ) => (p : ℚ) * c)
              (backtestPositions T 0 zscore)
              (List.zipWith (fun x y => x - y) rest (a :: rest))).getD 0 0 := by
        rw [scanSums_getD_zero _ _ (by intro hnil; rw [hnil] at hLlen; simp at hLlen; omega),
          zero_add]
      rw [show (1 : ℕ) = 0 + 1 from rfl,
        nan_cons_getElem?_succ _ 0 0 (by rw [scanSums_length, hLlen]; exact hr),
        nan_cons_getElem?_succ _ 0 0 (by rw [hLlen]; exact hr), hS]
    · intro i hi1 hi2
      obtain ⟨j, rfl⟩ : ∃ j, i = j + 1 := ⟨i - 1, by omega⟩
      have hj : j < rest.length := by
        simp only [List.length_cons] at hi2; omega
      have hj1 : 1 ≤ j := by omega
      have hcget : (run_backtest (a :: rest) zscore T).cumulative_pnl.getD (j + 1 - 1) none
          = some ((scanSums 0 (List.zipWith (fun (p : Int) (c : ℚ) => (p : ℚ) * c)
              (backtestPositions T 0 zscore)
              (List.zipWith (fun x y => x - y) rest (a :: rest)))).getD (j - 1) 0) := by
        rw [List.getD_eq_getElem?_getD, Nat.add_sub_cancel, hcum,
          nan_cons_getElem?_pos _ j 0 hj1 (by rw [scanSums_length, hLlen]; omega)]
        rfl
      have hpget : (run_backtest (a :: rest) zscore T).pnl.getD (j + 1) none
          = some ((List.zipWith (fun (p : Int) (c : ℚ) => (p : ℚ) * c)
              (backtestPositions T 0 zscore)
              (List.zipWith (fun x y => x - y) rest (a :: rest))).getD j 0) := by
        rw [List.getD_eq_getElem?_getD, hpnl,
          nan_cons_getElem?_succ _ j 0 (by rw [hLlen]; exact hj)]
        rfl
      refine ⟨by rw [hcget]; simp, by rw [hpget]; simp, ?_⟩
      rw [hcget, hpget, hcum,
        nan_cons_getElem?_succ _ j 0 (by rw [scanSums_length, hLlen]; exact hj)]
      have hrec := scanSums_getD_succ (List.zipWith (fun (p : Int) (c : ℚ) => (p : ℚ) * c)
        (backtestPositions T 0 zscore)
        (List.zipWith (fun x y => x - y) rest (a :: rest))) 0 (j - 1)
        (by rw [hLlen]; omega)
      rw [show (j - 1) + 1 = j by omega] at hrec
      rw [hrec]
      rfl

/-- Witness for C1 on the spec's own test vector (spread `[10,12,9,9,15]`, a
z path entering Long at once): concrete lagged-PnL values. -/
theorem backtest_pnl_lagged_amended_witness :
    ([(-3 : ℚ), -1, 1, -3, 0] : List ℚ).length
      = ([(10 : ℚ), 12, 9, 9, 15] : List ℚ).length ∧
    (run_backtest [10, 12, 9, 9, 15] [-3, -1, 1, -3, 0] 2).pnl[0]?
      = some (none : Option ℚ) ∧
    (run_backtest [10, 12, 9, 9, 15] [-3, -1, 1, -3, 0] 2).pnl[2]?
      = some (some (-3 : ℚ)) ∧
    (run_backtest [10, 12, 9, 9, 15] [-3, -1, 1, -3, 0] 2).cumulative_pnl[1]?
      = (run_backtest [10, 12, 9, 9, 15] [-3, -1, 1, -3, 0] 2).pnl[1]? ∧
    (run_backtest [10, 12, 9, 9, 15] [-3, -1, 1, -3, 0] 2).cumulative_pnl[3]?
      = some (some (-1 : ℚ)) := by
  have h := backtest_pnl_lagged_amended [10, 12, 9, 9, 15] [-3, -1, 1, -3, 0] 2 (by decide)
  exact ⟨by decide, (h.1 (by decide)).1,
    (h.2.1 2 (by decide) (by decide)).trans
      (by norm_num [run_backtest, backtestPositions, backtestStep]),
    h.2.2.1 (by decide),
    (h.2.2.2 3 (by decide) (by decide)).2.2.trans
      (by norm_num [run_backtest, backtestPositions, backtestStep, spreadDiff,
        omul, oadd, cumsumNaN])⟩

/-- Witness for C10 at a concrete input: five rows in, five rows out, and the
first recorded position is in the admissible set. -/
theorem backtest_row_invariants_witness :
    ([(-3 : ℚ), -1, 1, -3, 0] : List ℚ).length
      = ([(10 : ℚ), 12, 9, 9, 15] : List ℚ).length ∧
    (run_backtest [10, 12, 9, 9, 15] [-3, -1, 1, -3, 0] 2).positions.length = 5 ∧
    (run_backtest [10, 12, 9, 9, 15] [-3, -1, 1, -3, 0] 2).pnl.length = 5 ∧
    ((run_backtest [10, 12, 9, 9, 15] [-3, -1, 1, -3, 0] 2).positions.getD 0 0 = -1 ∨
     (run_backtest [10, 12, 9, 9, 15] [-3, -1, 1, -3, 0] 2).positions.getD 0 0 = 0 ∨
     (run_backtest [10, 12, 9, 9, 15] [-3, -1, 1, -3, 0] 2).positions.getD 0 0 = 1) := by
  have h := backtest_row_invariants [10, 12, 9, 9, 15] [-3, -1, 1, -3, 0] 2 (by decide)
  exact ⟨by decide, h.1.trans (by decide), h.2.2.1.trans (by decide),
    h.2.2.2.2.1 _ (by decide)⟩

/-! ## C8: the spread is elementwise Y − beta·X on the shared index -/

/-- C8: a row `(t, v)` is in the spread series exactly when `t` is a shared
(aligned, non-`NaN`) timestamp with values `y`, `x` and `v = y − beta·x`; the
spread has one row per aligned row, and an empty input gives an empty
result. -/
theorem spread_elementwise (series_y series_x : List (ℕ × Option ℚ))
    (hedge_ratio : ℚ) :
    (∀ t v, (t, v) ∈ calculate_spread series_y series_x hedge_ratio ↔
      ∃ y x, (t, y, x) ∈ alignDropna series_y series_x ∧ v = y - hedge_ratio * x) ∧
    (calculate_spread series_y series_x hedge_ratio).length
      = (alignDropna series_y series_x).length ∧
    calculate_spread [] series_x hedge_ratio = [] := by
  refine ⟨?_, by simp [calculate_spread], by simp [calculate_spread, alignDropna]⟩
  intro t v
  constructor
  · intro hmem
    rcases List.mem_map.mp hmem with ⟨e, he, heq⟩
    rcases e with ⟨t', y, x⟩
    rcases Prod.mk.injEq .. ▸ heq with ⟨rfl, rfl⟩
    exact ⟨y, x, he, rfl⟩
  · rintro ⟨y, x, hmem, rfl⟩
    exact List.mem_map.mpr ⟨(t, y, x), hmem, rfl⟩

/-- Witness for C8: with Y = `{0 ↦ 5, 1 ↦ 7}`, X = `{0 ↦ 2, 2 ↦ 9}` and
beta = 3, the row at the only shared timestamp is `(0, 5 − 3·2) = (0, −1)`. -/
theorem spread_elementwise_witness :
    (0, (-1 : ℚ)) ∈ calculate_spread [(0, some 5), (1, some 7)]
      [(0, some 2), (2, some 9)] 3 := by
  refine ((spread_elementwise [(0, some 5), (1, some 7)]
    [(0, some 2), (2, some 9)] 3).1 0 (-1)).mpr ⟨5, 2, ?_, by norm_num⟩
  norm_num [alignDropna, lookupTs, List.find?]

/-! ## C4: hedge estimator fallbacks and the OLS slope -/

lemma resid_sum (df : List (ℕ × ℚ × ℚ)) (a b : ℚ) :
    (df.map (fun e => e.2.1 - a - b * e.2.2)).sum
      = sumY df - (df.length : ℚ) * a - b * sumX df := by
  induction df with
  | nil => simp [sumY, sumX]
  | cons e l ih =>
    simp only [List.map_cons, List.sum_cons, ih, sumY, sumX, List.length_cons]
    push_cast
    ring

lemma residx_sum (df : List (ℕ × ℚ × ℚ)) (a b : ℚ) :
    (df.map (fun e => (e.2.1 - a - b * e.2.2) * e.2.2)).sum
      = sumXY df - a * sumX df - b * sumXX df := by
  induction df with
  | nil => simp [sumXY, sumX, sumXX]
  | cons e l ih =>
    simp only [List.map_cons, List.sum_cons, ih, sumXY, sumX, sumXX]
    ring

lemma sumX_const (df : List (ℕ × ℚ × ℚ)) (c : ℚ) (hc : ∀ e ∈ df, e.2.2 = c) :
    sumX df = (df.length : ℚ) * c := by
  induction df with
  | nil => simp [sumX]
  | cons e l ih =>
    have he := hc e (List.mem_cons_self e l)
    simp only [sumX, List.map_cons, List.sum_cons, List.length_cons] at *
    rw [he, ih (fun q hq => hc q (List.mem_cons_of_mem e hq))]
    push_cast
    ring

lemma sumXX_const (df : List (ℕ × ℚ × ℚ)) (c : ℚ) (hc : ∀ e ∈ df, e.2.2 = c) :
    sumXX df = (df.length : ℚ) * (c * c) := by
  induction df with
  | nil => simp [sumXX]
  | cons e l ih =>
    have he := hc e (List.mem_cons_self e l)
    simp only [sumXX, List.map_cons, List.sum_cons, List.length_cons] at *
    rw [he, ih (fun q hq => hc q (List.mem_cons_of_mem e hq))]
    push_cast
    ring

lemma olsDen_zero_of_const (df : List (ℕ × ℚ × ℚ)) (c : ℚ)
    (hc : ∀ e ∈ df, e.2.2 = c) : olsDen df = 0 := by
  rw [olsDen, sumX_const df c hc, sumXX_const df c hc]
  ring

/-- C4: the hedge estimator returns 0.0 with fewer than 5 aligned rows and
with a zero-variance (constant) regressor; otherwise it returns the unique
slope of the least-squares fit of Y on X with intercept (existence and
uniqueness through the normal equations). -/
theorem hedge_ratio_ols (series_y series_x : List (ℕ × Option ℚ)) :
    ((alignDropna series_y series_x).length < 5 →
      calculate_ols_hedge_ratio series_y series_x = 0) ∧
    ((∃ c, ∀ e ∈ alignDropna series_y series_x, e.2.2 = c) →
      calculate_ols_hedge_ratio series_y series_x = 0) ∧
    (5 ≤ (alignDropna series_y series_x).length →
      olsDen (alignDropna series_y series_x) ≠ 0 →
      (∃ a, isOLSFit (alignDropna series_y series_x) a
          (calculate_ols_hedge_ratio series_y series_x)) ∧
      (∀ a b, isOLSFit (alignDropna series_y series_x) a b →
        b = calculate_ols_hedge_ratio series_y series_x)) := by
  refine ⟨fun hlt => by simp [calculate_ols_hedge_ratio, hlt], ?_, ?_⟩
  · rintro ⟨c, hc⟩
    have hden := olsDen_zero_of_const _ c hc
    simp [calculate_ols_hedge_ratio, hden]
  · intro hlen hden
    have hn : ((alignDropna series_y series_x).length : ℚ) ≠ 0 := by
      have : (5 : ℚ) ≤ ((alignDropna series_y series_x).length : ℚ) := by
        exact_mod_cast hlen
      linarith
    have hval : calculate_ols_hedge_ratio series_y series_x
        = (((alignDropna series_y series_x).length : ℚ)
            * sumXY (alignDropna series_y series_x)
          - sumX (alignDropna series_y series_x) * sumY (alignDropna series_y series_x))
          / olsDen (alignDropna series_y series_x) := by
      rw [calculate_ols_hedge_ratio]
      rw [if_neg (by omega), if_neg hden]
    constructor
    · refine ⟨(sumY (alignDropna series_y series_x)
        - calculate_ols_hedge_ratio series_y series_x
            * sumX (alignDropna series_y series_x))
          / ((alignDropna series_y series_x).length : ℚ), ?_, ?_⟩
      · rw [resid_sum]
        field_simp
      · rw [residx_sum, hval]
        rw [olsDen] at hden ⊢
        field_simp
        ring
    · intro a b hfit
      have e1 := hfit.1
      have e2 := hfit.2
      rw [resid_sum] at e1
      rw [residx_sum] at e2
      rw [hval, eq_div_iff hden]
      simp only [olsDen]
      linear_combination (-(((alignDropna series_y series_x).length : ℚ))) * e2
        + sumX (alignDropna series_y series_x) * e1

/-- Witness for C4: a 1-row input falls back to 0, a constant regressor falls
back to 0, and a perfect line `y = 1 + 2x` over five points has slope 2. -/
theorem hedge_ratio_ols_witness :
    calculate_ols_hedge_ratio [(0, some 1)] [(0, some 1)] = 0 ∧
    calculate_ols_hedge_ratio
      [(0, some 1), (1, some 3), (2, some 5), (3, some 7), (4, some 9)]
      [(0, some 2), (1, some 2), (2, some 2), (3, some 2), (4, some 2)] = 0 ∧
    (2 : ℚ) = calculate_ols_hedge_ratio
      [(0, some 1), (1, some 3), (2, some 5), (3, some 7), (4, some 9)]
      [(0, some 0), (1, some 1), (2, some 2), (3, some 3), (4, some 4)] := by
  have halign : alignDropna
      [(0, some 1), (1, some 3), (2, some 5), (3, some 7), (4, some 9)]
      [(0, some 0), (1, some 1), (2, some 2), (3, some 3), (4, some 4)]
      = [(0, 1, 0), (1, 3, 1), (2, 5, 2), (3, 7, 3), (4, 9, 4)] := by decide
  refine ⟨(hedge_ratio_ols _ _).1 (by decide),
    (hedge_ratio_ols _ _).2.1 ⟨2, by decide⟩, ?_⟩
  exact ((hedge_ratio_ols _ _).2.2 (by decide)
      (by rw [halign]; norm_num [olsDen, sumX, sumXX])).2 1 2
    (by rw [halign]; norm_num [isOLSFit, sumY, sumX, sumXX, sumXY])

/-! ## C5: stationarity tester gating and verdict -/

/-- C5: the tester returns no verdict (`none`) when fewer than 20 clean
observations remain or when the test routine fails (modelled by the oracle
returning `none`, which the bare `except` maps to `None`); whenever it does
return a result, `is_stationary` holds exactly when the p-value is below
0.05. -/
theorem adf_unavailable_policy (adfuller : List ℚ → Option (ℚ × ℚ))
    (spread : List (Option ℚ)) :
    ((spread.filterMap id).length < 20 → perform_adf_test adfuller spread = none) ∧
    (adfuller (spread.filterMap id) = none → perform_adf_test adfuller spread = none) ∧
    (∀ r, perform_adf_test adfuller spread = some r →
      (r.is_stationary = true ↔ r.p_value < (0.05 : ℚ))) := by
  refine ⟨fun h => by simp [perform_adf_test, h], ?_, ?_⟩
  · intro hfail
    by_cases hlen : (spread.filterMap id).length < 20
    · simp [perform_adf_test, hlen]
    · simp [perform_adf_test, hlen, hfail]
  · intro r hr
    simp only [perform_adf_test] at hr
    split at hr
    · exact absurd hr (by simp)
    · split at hr
      · exact absurd hr (by simp)
      · rcases Option.some.injEq .. ▸ hr with rfl
        simp

/-- Witness for C5: 19 observations give no verdict, a failing test routine
gives no verdict, and a successful run with p-value 1 is reported
non-stationary. -/
theorem adf_unavailable_policy_witness :
    perform_adf_test (fun _ => some (0, 1)) (List.replicate 19 (some (1 : ℚ))) = none ∧
    perform_adf_test (fun _ => none) (List.replicate 20 (some (1 : ℚ))) = none ∧
    ((ADFResult.mk 0 1 false).is_stationary = true ↔
      (ADFResult.mk 0 1 false).p_value < (0.05 : ℚ)) := by
  refine ⟨(adf_unavailable_policy _ _).1 (by decide),
    (adf_unavailable_policy _ _).2.1 rfl,
    (adf_unavailable_policy (fun _ => some (0, 1))
      (List.replicate 20 (some (1 : ℚ)))).2.2 ⟨0, 1, false⟩ ?_⟩
  simp only [perform_adf_test]
  norm_num

/-! ## C6: pair-aligner correctness -/

lemma alignPair_length_eq_filter (ys xs : List (ℕ × ℚ)) :
    (alignPair ys xs).length
      = ((ys.map Prod.fst).filter (fun t => decide (t ∈ xs.map Prod.fst))).length := by
  induction ys with
  | nil => rfl
  | cons p ys ih =>
    simp only [alignPair, List.filterMap_cons, List.map_cons, List.filter_cons] at *
    cases hfind : xs.find? (fun q => q.1 = p.1) with
    | none =>
      have hnot : ¬ p.1 ∈ xs.map Prod.fst := by
        intro hmem
        rcases List.mem_map.mp hmem with ⟨q, hq, hq1⟩
        have := List.find?_eq_none.mp hfind q hq
        simp [hq1] at this
      simp only [hfind, Option.map_none', decide_eq_true_eq, hnot, if_false]
      exact ih
    | some q =>
      have hq1 : q.1 = p.1 := by
        have := List.find?_some hfind
        simpa using this
      have hmem : p.1 ∈ xs.map Prod.fst :=
        List.mem_map.mpr ⟨q, List.mem_of_find?_eq_some hfind, hq1⟩
      simp only [hfind, Option.map_some', decide_eq_true_eq, hmem, if_true,
        List.length_cons]
      exact congrArg Nat.succ ih

lemma alignPair_map_fst_sublist (ys xs : List (ℕ × ℚ)) :
    ((alignPair ys xs).map Prod.fst).Sublist (ys.map Prod.fst) := by
  induction ys with
  | nil => simp [alignPair]
  | cons p ys ih =>
    simp only [alignPair, List.filterMap_cons, List.map_cons] at *
    cases hfind : xs.find? (fun q => q.1 = p.1) with
    | none => exact List.Sublist.cons p.1 ih
    | some q => simpa using List.Sublist.cons₂ p.1 ih

/-- C6: with strictly increasing timestamps on the left series, every aligned
row carries a timestamp present in both inputs with each side's close price
unchanged, the number of aligned rows is the cardinality of the intersection
of the two timestamp sets, and the aligned timestamps are strictly
ascending. -/
theorem pair_alignment_correct (ys xs : List (ℕ × ℚ))
    (hys : List.Pairwise (fun a b => a < b) (ys.map Prod.fst)) :
    (∀ e ∈ alignPair ys xs, (e.1, e.2.1) ∈ ys ∧ (e.1, e.2.2) ∈ xs) ∧
    (alignPair ys xs).length
      = ((ys.map Prod.fst).toFinset ∩ (xs.map Prod.fst).toFinset).card ∧
    List.Pairwise (fun a b => a < b) ((alignPair ys xs).map Prod.fst) := by
  refine ⟨?_, ?_, List.Pairwise.sublist (alignPair_map_fst_sublist ys xs) hys⟩
  · intro e he
    rcases List.mem_filterMap.mp he with ⟨p, hp, hf⟩
    cases hfind : xs.find? (fun q => q.1 = p.1) with
    | none => rw [hfind] at hf; exact absurd hf (by simp)
    | some q =>
      rw [hfind] at hf
      have hq1 : q.1 = p.1 := by
        have := List.find?_some hfind
        simpa using this
      have hqmem := List.mem_of_find?_eq_some hfind
      rcases Option.some.injEq .. ▸ hf with rfl
      exact ⟨hp, by rw [← hq1]; exact hqmem⟩
  · rw [alignPair_length_eq_filter]
    have hnd : (ys.map Prod.fst).Nodup := hys.imp (fun hab => ne_of_lt hab)
    have hndf : ((ys.map Prod.fst).filter
        (fun t => decide (t ∈ xs.map Prod.fst))).Nodup := hnd.filter _
    rw [← List.toFinset_card_of_nodup hndf, List.toFinset_filter]
    congr 1
    ext t
    simp [Finset.mem_filter, Finset.mem_inter, List.mem_toFinset]

/-- Witness for C6 at concrete bar series sharing timestamps 5 and 9. -/
theorem pair_alignment_correct_witness :
    (((5 : ℕ), (11 : ℚ)) ∈ ([(0, 10), (5, 11), (9, 12)] : List (ℕ × ℚ)) ∧
      ((5 : ℕ), (20 : ℚ)) ∈ ([(5, 20), (7, 21), (9, 22)] : List (ℕ × ℚ))) ∧
    (alignPair [(0, (10 : ℚ)), (5, 11), (9, 12)] [(5, 20), (7, 21), (9, 22)]).length
      = ((([(0, (10 : ℚ)), (5, 11), (9, 12)] : List (ℕ × ℚ)).map Prod.fst).toFinset
          ∩ (([(5, (20 : ℚ)), (7, 21), (9, 22)] : List (ℕ × ℚ)).map Prod.fst).toFinset).card ∧
    List.Pairwise (fun a b => a < b)
      ((alignPair [(0, (10 : ℚ)), (5, 11), (9, 12)] [(5, 20), (7, 21), (9, 22)]).map
        Prod.fst) := by
  have h := pair_alignment_correct [(0, 10), (5, 11), (9, 12)]
    [(5, 20), (7, 21), (9, 22)] (by decide)
  exact ⟨h.1 (5, 11, 20) (by decide), h.2.1, h.2.2⟩

/-! ## C7: bar aggregation -/

lemma bucket_eq_iff (d t k : ℕ) (hd : 0 < d) :
    t / d = k ↔ (k * d ≤ t ∧ t < k * d + d) := by
  constructor
  · intro h
    subst h
    constructor
    · calc t / d * d = d * (t / d) := mul_comm _ _
        _ ≤ d * (t / d) + t % d := Nat.le_add_right _ _
        _ = t := Nat.div_add_mod t d
    · calc t = d * (t / d) + t % d := (Nat.div_add_mod t d).symm
        _ < d * (t / d) + d := Nat.add_lt_add_left (Nat.mod_lt t hd) _
        _ = t / d * d + d := by rw [mul_comm]
  · rintro ⟨h1, h2⟩
    exact Nat.div_eq_of_lt_le h1 (by rw [Nat.succ_mul]; exact h2)

lemma mem_bucketTicks (d k : ℕ) (hd : 0 < d) (ticks : List (ℕ × ℚ)) (tp : ℕ × ℚ) :
    tp ∈ bucketTicks d k ticks ↔
      (tp ∈ ticks ∧ k * d ≤ tp.1 ∧ tp.1 < k * d + d) := by
  rw [bucketTicks, List.mem_filter,
    (List.perm_insertionSort (fun p q => p.1 ≤ q.1) ticks).mem_iff,
    decide_eq_true_eq, bucket_eq_iff d tp.1 k hd]

lemma foldl_max_spec (l : List ℚ) (a : ℚ) :
    (l.foldl max a = a ∨ l.foldl max a ∈ l) ∧ a ≤ l.foldl max a ∧
      ∀ x ∈ l, x ≤ l.foldl max a := by
  induction l generalizing a with
  | nil => simp
  | cons b l ih =>
    obtain ⟨ih1, ih2, ih3⟩ := ih (max a b)
    rw [List.foldl_cons]
    refine ⟨?_, le_trans (le_max_left a b) ih2, ?_⟩
    · rcases ih1 with h | h
      · rcases max_choice a b with hm | hm
        · exact Or.inl (h.trans hm)
        · exact Or.inr (List.mem_cons.mpr (Or.inl (h.trans hm)))
      · exact Or.inr (List.mem_cons_of_mem b h)
    · intro x hx
      rcases List.mem_cons.mp hx with rfl | hx
      · exact le_trans (le_max_right a x) ih2
      · exact ih3 x hx

lemma foldl_min_spec (l : List ℚ) (a : ℚ) :
    (l.foldl min a = a ∨ l.foldl min a ∈ l) ∧ l.foldl min a ≤ a ∧
      ∀ x ∈ l, l.foldl min a ≤ x := by
  induction l generalizing a with
  | nil => simp
  | cons b l ih =>
    obtain ⟨ih1, ih2, ih3⟩ := ih (min a b)
    rw [List.foldl_cons]
    refine ⟨?_, le_trans ih2 (min_le_left a b), ?_⟩
    · rcases ih1 with h | h
      · rcases min_choice a b with hm | hm
        · exact Or.inl (h.trans hm)
        · exact Or.inr (List.mem_cons.mpr (Or.inl (h.trans hm)))
      · exact Or.inr (List.mem_cons_of_mem b h)
    · intro x hx
      rcases List.mem_cons.mp hx with rfl | hx
      · exact le_trans ih2 (min_le_right a x)
      · exact ih3 x hx

/-- C7: an empty tick input yields an empty bar series; a bar whose interval
starts at `k·d` exists exactly when some tick falls in `[k·d, k·d + d)`; and
every emitted bar reads its bucket's ticks (time-ordered, characterised by
the half-open interval) with open = first price, close = last price and
high/low the maximum/minimum price of the bucket. -/
theorem bar_aggregation (d : ℕ) (ticks : List (ℕ × ℚ)) (hd : 0 < d) :
    load_data d [] = [] ∧
    (∀ k : ℕ, (∃ b ∈ load_data d ticks, b.interval_start = k * d) ↔
      ∃ tp ∈ ticks, k * d ≤ tp.1 ∧ tp.1 < k * d + d) ∧
    (∀ b ∈ load_data d ticks, ∃ k,
      b.interval_start = k * d ∧
      bucketTicks d k ticks ≠ [] ∧
      (∀ tp, tp ∈ bucketTicks d k ticks ↔
        (tp ∈ ticks ∧ k * d ≤ tp.1 ∧ tp.1 < k * d + d)) ∧
      b.opn = ((bucketTicks d k ticks).headD (0, 0)).2 ∧
      b.close = ((bucketTicks d k ticks).getLastD (0, 0)).2 ∧
      b.high ∈ (bucketTicks d k ticks).map Prod.snd ∧
      (∀ x ∈ (bucketTicks d k ticks).map Prod.snd, x ≤ b.high) ∧
      b.low ∈ (bucketTicks d k ticks).map Prod.snd ∧
      (∀ x ∈ (bucketTicks d k ticks).map Prod.snd, b.low ≤ x)) := by
  have hsortmem : ∀ tp : ℕ × ℚ,
      tp ∈ ticks.insertionSort (fun p q => p.1 ≤ q.1) ↔ tp ∈ ticks := fun tp =>
    (List.perm_insertionSort (fun p q => p.1 ≤ q.1) ticks).mem_iff
  refine ⟨rfl, ?_, ?_⟩
  · intro k
    constructor
    · rintro ⟨b, hb, hbk⟩
      rcases List.mem_filterMap.mp hb with ⟨k', hk', hmk⟩
      have hik : b.interval_start = k' * d := by
        cases hbs : bucketTicks d k' ticks with
        | nil => rw [hbs] at hmk; exact absurd hmk (by simp [mkBar])
        | cons p ps =>
          rw [hbs] at hmk
          rcases Option.some.injEq .. ▸ hmk with rfl
          rfl
      have hkk : k' = k := Nat.eq_of_mul_eq_mul_right hd (hik.symm.trans hbk)
      subst hkk
      rcases List.mem_dedup.mp hk' with hk'
      rcases List.mem_map.mp hk' with ⟨tp, htp, htpk⟩
      exact ⟨tp, (hsortmem tp).mp htp, (bucket_eq_iff d tp.1 k' hd).mp htpk⟩
    · rintro ⟨tp, htp, hbound⟩
      have htpk : tp.1 / d = k := (bucket_eq_iff d tp.1 k hd).mpr hbound
      have hkmem : k ∈ ((ticks.insertionSort (fun p q => p.1 ≤ q.1)).map
          (fun p => p.1 / d)).dedup :=
        List.mem_dedup.mpr (List.mem_map.mpr ⟨tp, (hsortmem tp).mpr htp, htpk⟩)
      have hbmem : tp ∈ bucketTicks d k ticks :=
        (mem_bucketTicks d k hd ticks tp).mpr ⟨htp, hbound⟩
      cases hbs : bucketTicks d k ticks with
      | nil => rw [hbs] at hbmem; cases hbmem
      | cons p ps =>
        have hmk : mkBar d k (bucketTicks d k ticks)
            = some (Bar.mk (k * d) p.2 (ps.foldl (fun m q => max m q.2) p.2)
                (ps.foldl (fun m q => min m q.2) p.2) (ps.getLastD p).2) := by
          rw [hbs]; rfl
        exact ⟨_, List.mem_filterMap.mpr ⟨k, hkmem, hmk⟩, rfl⟩
  · intro b hb
    rcases List.mem_filterMap.mp hb with ⟨k, hk, hmk⟩
    refine ⟨k, ?_⟩
    cases hbs : bucketTicks d k ticks with
    | nil => rw [hbs] at hmk; exact absurd hmk (by simp [mkBar])
    | cons p ps =>
      rw [hbs] at hmk
      rcases Option.some.injEq .. ▸ hmk with rfl
      have hmax := foldl_max_spec (ps.map Prod.snd) p.2
      have hmin := foldl_min_spec (ps.map Prod.snd) p.2
      rw [List.foldl_map] at hmax
      rw [List.foldl_map] at hmin
      refine ⟨rfl, by simp, fun tp => hbs ▸ mem_bucketTicks d k hd ticks tp,
        rfl, by rw [List.getLastD_cons], ?_, ?_, ?_, ?_⟩
      · rw [List.map_cons]
        rcases hmax.1 with h | h
        · exact List.mem_cons.mpr (Or.inl h)
        · exact List.mem_cons_of_mem _ h
      · intro x hx
        rw [List.map_cons] at hx
        rcases List.mem_cons.mp hx with rfl | hx
        · exact hmax.2.1
        · exact hmax.2.2 x hx
      · rw [List.map_cons]
        rcases hmin.1 with h | h
        · exact List.mem_cons.mpr (Or.inl h)
        · exact List.mem_cons_of_mem _ h
      · intro x hx
        rw [List.map_cons] at hx
        rcases List.mem_cons.mp hx with rfl | hx
        · exact hmin.2.1
        · exact hmin.2.2 x hx

/-- Witness for C7: with 60-unit bars, ticks at times 10, 65 and 70 produce a
bar for the second interval (two ticks) and an empty input produces no
bars. -/
theorem bar_aggregation_witness :
    load_data 60 [] = [] ∧
    (∃ b ∈ load_data 60 [(10, (5 : ℚ)), (70, 7), (65, 6)],
      b.interval_start = 1 * 60) := by
  have h := bar_aggregation 60 [(10, (5 : ℚ)), (70, 7), (65, 6)] (by decide)
  exact ⟨h.1, (h.2.1 1).mpr ⟨(65, 6), by decide, by decide⟩⟩

/-! ## C2: rolling z-score window policy and zero-std fallback -/

lemma zscore_cell (s : List ℝ) (w i : ℕ) (hi : i < s.length) :
    (calculate_zscore s w)[i]? = some (fillna0 (zscoreRaw s w i)) := by
  simp [calculate_zscore, List.getElem?_range, hi]

lemma windowSlice_length (l : List ℝ) (w i : ℕ) (hi : i < l.length)
    (hw : w ≤ i + 1) : (windowSlice l w i).length = w := by
  simp only [windowSlice, List.length_drop, List.length_take]
  omega

lemma getD_mem_windowSlice (l : List ℝ) (w i : ℕ) (hi : i < l.length)
    (hw : w ≤ i + 1) (hw1 : 1 ≤ w) : l.getD i 0 ∈ windowSlice l w i := by
  have hq : (windowSlice l w i)[w - 1]? = l[i]? := by
    rw [windowSlice, List.getElem?_drop, List.getElem?_take_of_lt (by omega)]
    congr 1
    omega
  rw [getElem?_eq_some_getD l i 0 hi] at hq
  exact List.getElem?_mem hq

lemma sum_eq_zero_all_zero (l : List ℝ) (hpos : ∀ x ∈ l, 0 ≤ x)
    (h : l.sum = 0) : ∀ x ∈ l, x = 0 := by
  induction l with
  | nil => simp
  | cons a l ih =>
    have ha : 0 ≤ a := hpos a (List.mem_cons_self a l)
    have hl : 0 ≤ l.sum :=
      List.sum_nonneg (fun x hx => hpos x (List.mem_cons_of_mem a hx))
    rw [List.sum_cons] at h
    intro x hx
    rcases List.mem_cons.mp hx with rfl | hx
    · linarith
    · exact ih (fun y hy => hpos y (List.mem_cons_of_mem a hy)) (by linarith) x hx

lemma windowVar_nonneg (l : List ℝ) (w i : ℕ) (hw2 : 2 ≤ w) :
    0 ≤ windowVar l w i := by
  have hw : (0 : ℝ) < (w : ℝ) - 1 := by
    have : (2 : ℝ) ≤ (w : ℝ) := by exact_mod_cast hw2
    linarith
  refine div_nonneg (List.sum_nonneg ?_) (le_of_lt hw)
  intro x hx
  rcases List.mem_map.mp hx with ⟨y, _, rfl⟩
  positivity

lemma resid_zero_of_var_zero (l : List ℝ) (w i : ℕ) (hi : i < l.length)
    (hw : w ≤ i + 1) (hw2 : 2 ≤ w) (hv : windowVar l w i = 0) :
    l.getD i 0 - windowMean l w i = 0 := by
  have hwpos : (0 : ℝ) < (w : ℝ) - 1 := by
    have : (2 : ℝ) ≤ (w : ℝ) := by exact_mod_cast hw2
    linarith
  rw [windowVar, div_eq_zero_iff] at hv
  rcases hv with hv | hv
  · have hall := sum_eq_zero_all_zero _
      (fun x hx => by
        rcases List.mem_map.mp hx with ⟨y, _, rfl⟩
        positivity) hv
    have hmem := getD_mem_windowSlice l w i hi hw (by omega)
    have hsq := hall ((l.getD i 0 - windowMean l w i) ^ 2)
      (List.mem_map.mpr ⟨l.getD i 0, hmem, rfl⟩)
    exact sq_eq_zero_iff.mp hsq
  · exact absurd hv (by linarith)

/-- C2: the z-score series has one cell per input cell; cells with an
incomplete window are 0.0; on a complete window a zero variance forces the
cell to 0.0 (the numerator vanishes too, so the float division is `0/0`,
`NaN`, filled with 0), never `NaN` or an infinity; on a complete window with
nonzero standard deviation the cell is `(spread[i] − mean)/std`; and no cell
of the output is ever `NaN` or an infinity. -/
theorem zscore_policy (spread : List ℝ) (window : ℕ) :
    (calculate_zscore spread window).length = spread.length ∧
    (∀ i, i < spread.length → i + 1 < window →
      (calculate_zscore spread window)[i]? = some (PFloat.val 0)) ∧
    (∀ i, i < spread.length → window ≤ i + 1 → 2 ≤ window →
      windowVar spread window i = 0 →
      (calculate_zscore spread window)[i]? = some (PFloat.val 0)) ∧
    (∀ i, i < spread.length → window ≤ i + 1 → 2 ≤ window →
      Real.sqrt (windowVar spread window i) ≠ 0 →
      (calculate_zscore spread window)[i]?
        = some (PFloat.val ((spread.getD i 0 - windowMean spread window i)
            / Real.sqrt (windowVar spread window i)))) ∧
    (∀ i, i < spread.length → ∃ r : ℝ,
      (calculate_zscore spread window)[i]? = some (PFloat.val r)) := by
  have hzero : ∀ i, i < spread.length → window ≤ i + 1 → 2 ≤ window →
      windowVar spread window i = 0 →
      (calculate_zscore spread window)[i]? = some (PFloat.val 0) := by
    intro i hi hw hw2 hv
    rw [zscore_cell spread window i hi, zscoreRaw, if_neg (by omega),
      if_neg (by omega), resid_zero_of_var_zero spread window i hi hw hw2 hv,
      hv, Real.sqrt_zero]
    simp [pdiv, fillna0]
  have hnonzero : ∀ i, i < spread.length → window ≤ i + 1 → 2 ≤ window →
      Real.sqrt (windowVar spread window i) ≠ 0 →
      (calculate_zscore spread window)[i]?
        = some (PFloat.val ((spread.getD i 0 - windowMean spread window i)
            / Real.sqrt (windowVar spread window i))) := by
    intro i hi hw hw2 hs
    rw [zscore_cell spread window i hi, zscoreRaw, if_neg (by omega),
      if_neg (by omega)]
    simp [pdiv, hs, fillna0]
  have hincomplete : ∀ i, i < spread.length → i + 1 < window →
      (calculate_zscore spread window)[i]? = some (PFloat.val 0) := by
    intro i hi hltw
    rw [zscore_cell spread window i hi, zscoreRaw, if_pos hltw]
    rfl
  refine ⟨by simp [calculate_zscore], hincomplete, hzero, hnonzero, ?_⟩
  intro i hi
  by_cases h1 : i + 1 < window
  · exact ⟨0, hincomplete i hi h1⟩
  · by_cases hw2 : 2 ≤ window
    · by_cases hs : Real.sqrt (windowVar spread window i) = 0
      · refine ⟨0, hzero i hi (by omega) hw2 ?_⟩
        have hle := Real.sqrt_eq_zero'.mp hs
        exact le_antisymm hle (windowVar_nonneg spread window i hw2)
      · exact ⟨_, hnonzero i hi (by omega) hw2 hs⟩
    · refine ⟨0, ?_⟩
      rw [zscore_cell spread window i hi, zscoreRaw, if_neg h1, if_pos (by omega)]
      rfl

/-- Witness for C2: window 3 over a constant spread of length 3: the first
two cells are 0 by the incomplete-window rule, the last by the zero-std
fallback; and all cells carry plain values. -/
theorem zscore_policy_witness :
    (calculate_zscore [(1 : ℝ), 1, 1] 3).length = 3 ∧
    (calculate_zscore [(1 : ℝ), 1, 1] 3)[0]? = some (PFloat.val 0) ∧
    (calculate_zscore [(1 : ℝ), 1, 1] 3)[2]? = some (PFloat.val 0) ∧
    (∃ r : ℝ, (calculate_zscore [(1 : ℝ), 1, 1] 3)[1]? = some (PFloat.val r)) := by
  have h := zscore_policy [(1 : ℝ), 1, 1] 3
  refine ⟨by simpa using h.1, h.2.1 0 (by norm_num) (by norm_num),
    h.2.2.1 2 (by norm_num) (by norm_num) (by norm_num) ?_,
    h.2.2.2.2 1 (by norm_num)⟩
  have hsl : windowSlice [(1 : ℝ), 1, 1] 3 2 = [1, 1, 1] := rfl
  rw [windowVar, hsl, windowMean, hsl]
  norm_num

/-! ## C9: the pipeline is deterministic

Each stage of the embedding is a pure function of the data the Python code
reads (series, window, threshold; the statsmodels test routine enters as an
explicit argument), so two invocations on identical inputs are identical.
The embedding itself encodes the absence of hidden state: nothing else can
influence a result. -/

/-- C9: hedge estimation, spread, z-score, rolling correlation, stationarity
test and backtest each produce identical outputs on identical inputs. -/
theorem pipeline_deterministic :
    (∀ y1 y2 x1 x2 : List (ℕ × Option ℚ), y1 = y2 → x1 = x2 →
      calculate_ols_hedge_ratio y1 x1 = calculate_ols_hedge_ratio y2 x2) ∧
    (∀ (y1 y2 x1 x2 : List (ℕ × Option ℚ)) (b1 b2 : ℚ), y1 = y2 → x1 = x2 →
      b1 = b2 → calculate_spread y1 x1 b1 = calculate_spread y2 x2 b2) ∧
    (∀ (s1 s2 : List ℝ) (w1 w2 : ℕ), s1 = s2 → w1 = w2 →
      calculate_zscore s1 w1 = calculate_zscore s2 w2) ∧
    (∀ (y1 y2 x1 x2 : List (ℕ × Option ℚ)) (w1 w2 : ℕ), y1 = y2 → x1 = x2 →
      w1 = w2 →
      calculate_rolling_correlation y1 x1 w1 = calculate_rolling_correlation y2 x2 w2) ∧
    (∀ (adfuller : List ℚ → Option (ℚ × ℚ)) (s1 s2 : List (Option ℚ)), s1 = s2 →
      perform_adf_test adfuller s1 = perform_adf_test adfuller s2) ∧
    (∀ (sp1 sp2 z1 z2 : List ℚ) (t1 t2 : ℚ), sp1 = sp2 → z1 = z2 → t1 = t2 →
      run_backtest sp1 z1 t1 = run_backtest sp2 z2 t2) := by
  refine ⟨?_, ?_, ?_, ?_, ?_, ?_⟩
  · rintro y _ x _ rfl rfl; rfl
  · rintro y _ x _ b _ rfl rfl rfl; rfl
  · rintro s _ w _ rfl rfl; rfl
  · rintro y _ x _ w _ rfl rfl rfl; rfl
  · rintro adf s _ rfl; rfl
  · rintro sp _ z _ t _ rfl rfl rfl; rfl

/-- Witness for C9: the six components applied twice to the same concrete
inputs agree. -/
theorem pipeline_deterministic_witness :
    calculate_ols_hedge_ratio [(0, some 1)] [(0, some 2)]
      = calculate_ols_hedge_ratio [(0, some 1)] [(0, some 2)] ∧
    calculate_spread [(0, some 1)] [(0, some 2)] 3
      = calculate_spread [(0, some 1)] [(0, some 2)] 3 ∧
    calculate_zscore [(1 : ℝ), 2] 2 = calculate_zscore [(1 : ℝ), 2] 2 ∧
    calculate_rolling_correlation [(0, some 1)] [(0, some 2)] 2
      = calculate_rolling_correlation [(0, some 1)] [(0, some 2)] 2 ∧
    perform_adf_test (fun _ => none) [some 1]
      = perform_adf_test (fun _ => none) [some 1] ∧
    run_backtest [1, 2] [0, 0] 2 = run_backtest [1, 2] [0, 0] 2 :=
  ⟨pipeline_deterministic.1 _ _ _ _ rfl rfl,
    pipeline_deterministic.2.1 _ _ _ _ _ _ rfl rfl rfl,
    pipeline_deterministic.2.2.1 _ _ _ _ rfl rfl,
    pipeline_deterministic.2.2.2.1 _ _ _ _ _ _ rfl rfl rfl,
    pipeline_deterministic.2.2.2.2.1 _ _ _ rfl,
    pipeline_deterministic.2.2.2.2.2 _ _ _ _ _ _ rfl rfl rfl⟩

end Quant
